import Mathlib

/-!
Verification of the magic-folder core against its source.

Paths and grid payloads are modelled as `List Char` (Python unicode text,
processed character by character); HTTP effects are modelled by passing the
grid's `Response` explicitly and returning `Except` values for raised errors.
-/

set_option maxHeartbeats 1000000

/-! ## Path codec (`src/magic_folder/magicpath.py`) -/

/-- `path2magic` from `magicpath.py`: `re.sub(u'[/@]', ...)` replaces each
single character `/` by `@_` and each `@` by `@@`, scanning left to right. -/
def path2magic : List Char → List Char
  | [] => []
  | c :: rest =>
    if c = '/' then '@' :: '_' :: path2magic rest
    else if c = '@' then '@' :: '@' :: path2magic rest
    else c :: path2magic rest

/-- `magic2path` from `magicpath.py`: `re.sub(u'@[_@]', ...)` replaces each
non-overlapping occurrence of `@_` by `/` and `@@` by `@`, scanning left to
right; any other character (including an unmatched `@`) is left unchanged. -/
def magic2path : List Char → List Char
  | [] => []
  | [c] => [c]
  | c1 :: c2 :: rest =>
    if c1 = '@' ∧ c2 = '_' then '/' :: magic2path rest
    else if c1 = '@' ∧ c2 = '@' then '@' :: magic2path rest
    else c1 :: magic2path (c2 :: rest)

lemma magic2path_cons_of_ne (c : Char) (l : List Char) (hc : c ≠ '@') :
    magic2path (c :: l) = c :: magic2path l := by
  cases l with
  | nil => rfl
  | cons d rest =>
      have h1 : ¬(c = '@' ∧ d = '_') := fun h => hc h.1
      have h2 : ¬(c = '@' ∧ d = '@') := fun h => hc h.1
      simp [magic2path, h1, h2]

lemma roundtrip_aux : ∀ p : List Char, magic2path (path2magic p) = p := by
  intro p
  induction p with
  | nil => rfl
  | cons c rest ih =>
      by_cases h1 : c = '/'
      · subst h1
        have : path2magic ('/' :: rest) = '@' :: '_' :: path2magic rest := by
          simp [path2magic]
        rw [this]
        have : magic2path ('@' :: '_' :: path2magic rest)
            = '/' :: magic2path (path2magic rest) := by
          simp [magic2path]
        rw [this, ih]
      · by_cases h2 : c = '@'
        · subst h2
          have : path2magic ('@' :: rest) = '@' :: '@' :: path2magic rest := by
            simp [path2magic]
          rw [this]
          have h3 : ¬(('@' : Char) = '@' ∧ ('@' : Char) = '_') := by decide
          have : magic2path ('@' :: '@' :: path2magic rest)
              = '@' :: magic2path (path2magic rest) := by
            simp [magic2path, h3]
          rw [this, ih]
        · have : path2magic (c :: rest) = c :: path2magic rest := by
            simp [path2magic, h1, h2]
          rw [this, magic2path_cons_of_ne c _ h2, ih]

/-- C1: decoding the encoding returns the original path:
`magic2path (path2magic p) = p` for every path `p`. -/
theorem magic2path_path2magic_roundtrip (p : List Char) :
    magic2path (path2magic p) = p :=
  roundtrip_aux p

/-- C2: the path encoding is injective: distinct paths have distinct
encodings under `path2magic`. -/
theorem path2magic_injective (p1 p2 : List Char) (h : p1 ≠ p2) :
    path2magic p1 ≠ path2magic p2 := by
  intro heq
  exact h (by rw [← roundtrip_aux p1, ← roundtrip_aux p2, heq])

theorem path2magic_injective_witness :
    (['a'] : List Char) ≠ ['b'] ∧ path2magic ['a'] ≠ path2magic ['b'] :=
  ⟨by decide, path2magic_injective ['a'] ['b'] (by decide)⟩

/-- C5 counterexample: on an escape-prefix `@` not followed by `_` or `@`,
`magic2path` silently passes the malformed sequence through unchanged
(it returns normally; no error of any kind is raised by the code). -/
theorem magic2path_malformed_counterexample :
    magic2path ['@', 'x'] = ['@', 'x'] := by decide

/-- C5 (amended): `magic2path` leaves an escape-prefix `@` that is not
followed by `_` or `@` unchanged in the output and keeps decoding the rest;
it never raises on malformed input. -/
theorem magic2path_malformed_passthrough (c : Char) (rest : List Char)
    (h1 : c ≠ '_') (h2 : c ≠ '@') :
    magic2path ('@' :: c :: rest) = '@' :: magic2path (c :: rest) := by
  simp [magic2path, h1, h2]

theorem magic2path_malformed_passthrough_witness :
    magic2path ['@', 'x', '/'] = '@' :: magic2path ['x', '/'] :=
  magic2path_malformed_passthrough 'x' ['/'] (by decide) (by decide)

/-! ## Ignore predicate (`src/magic_folder/magicpath.py`)

`should_ignore_file` first tests the whole path against the fixed suffix
list, then repeatedly applies `os.path.split` (POSIX), returning true when a
tail segment starts with `.` or when the split no longer shrinks the path
(which happens exactly for absolute all-slash remainders). -/

/-- `IGNORE_SUFFIXES` from `magicpath.py`. -/
def IGNORE_SUFFIXES : List (List Char) :=
  [['.', 'b', 'a', 'c', 'k', 'u', 'p'],
   ['.', 't', 'm', 'p'],
   ['.', 'c', 'o', 'n', 'f', 'l', 'i', 'c', 't']]

/-- POSIX `p.rfind('/') + 1`: the index one past the last slash, 0 when the
path has no slash.  This is the split point used by `os.path.split`. -/
def lastSlashSucc : List Char → Nat
  | [] => 0
  | c :: rest =>
    let r := lastSlashSucc rest
    if 0 < r then r + 1
    else if c = '/' then 1 else 0

/-- `head.rstrip('/')` from `os.path.split`: drop trailing slashes. -/
def rstripSlash (l : List Char) : List Char :=
  (l.reverse.dropWhile (fun c => c = '/')).reverse

/-- The head component of `os.path.split`: `p[:i]` for `i = rfind('/') + 1`,
with trailing slashes stripped unless the head is empty or all slashes. -/
def splitHead (p : List Char) : List Char :=
  if (p.take (lastSlashSucc p)).all (fun c => c = '/') then p.take (lastSlashSucc p)
  else rstripSlash (p.take (lastSlashSucc p))

/-- The tail component of `os.path.split`: `p[i:]` for `i = rfind('/') + 1`. -/
def splitTail (p : List Char) : List Char :=
  p.drop (lastSlashSucc p)

/-- `tail_u.startswith(u".")`. -/
def startsWithDot : List Char → Bool
  | [] => false
  | c :: _ => decide (c = '.')

lemma lastSlashSucc_le (p : List Char) : lastSlashSucc p ≤ p.length := by
  induction p with
  | nil => simp [lastSlashSucc]
  | cons c rest ih =>
      simp only [lastSlashSucc, List.length_cons]
      split
      · omega
      · split <;> omega

lemma rstripSlash_length_le (l : List Char) :
    (rstripSlash l).length ≤ l.length := by
  have hs : l.reverse.dropWhile (fun c => decide (c = '/')) <:+ l.reverse :=
    List.dropWhile_suffix _
  have h := hs.sublist.length_le
  simpa [rstripSlash] using h

lemma rstripSlash_of_length_eq (l : List Char)
    (h : (rstripSlash l).length = l.length) : rstripSlash l = l := by
  have hs : l.reverse.dropWhile (fun c => decide (c = '/')) <:+ l.reverse :=
    List.dropWhile_suffix _
  have hlen : (l.reverse.dropWhile (fun c => decide (c = '/'))).length
      = l.reverse.length := by
    have : (rstripSlash l).length
        = (l.reverse.dropWhile (fun c => decide (c = '/'))).length := by
      simp [rstripSlash]
    simp only [List.length_reverse]
    omega
  have := List.Sublist.eq_of_length hs.sublist hlen
  simp only [rstripSlash, this, List.reverse_reverse]

lemma splitHead_length_lt (p : List Char) (h : splitHead p ≠ p) :
    (splitHead p).length < p.length := by
  rcases Nat.lt_or_ge (lastSlashSucc p) p.length with hlt | hge
  · -- split point strictly inside: head is a strict prefix, both branches
    have htake : (p.take (lastSlashSucc p)).length = lastSlashSucc p := by
      simp [List.length_take]; omega
    unfold splitHead
    split
    · omega
    · have := rstripSlash_length_le (p.take (lastSlashSucc p))
      omega
  · -- split point at the end: the whole path is the head
    have heq : lastSlashSucc p = p.length :=
      Nat.le_antisymm (lastSlashSucc_le p) hge
    have htake : p.take (lastSlashSucc p) = p := by
      simp [heq]
    unfold splitHead at h ⊢
    rw [htake] at h ⊢
    by_cases hall : (p.all fun c => decide (c = '/')) = true
    · rw [if_pos hall] at h
      exact absurd rfl h
    · rw [if_neg hall] at h ⊢
      rcases Nat.lt_or_ge (rstripSlash p).length p.length with hl | hg
      · exact hl
      · have : (rstripSlash p).length = p.length :=
          Nat.le_antisymm (rstripSlash_length_le p) hg
        exact absurd (rstripSlash_of_length_eq p this) h

/-- The `while` loop of `should_ignore_file`: walk the path with
`os.path.split`, returning true on a dot-prefixed tail segment or when the
split leaves the path unchanged (absolute root), false once the path is
exhausted. -/
def ignoreWalk (p : List Char) : Bool :=
  if p = [] then false
  else if startsWithDot (splitTail p) then true
  else if splitHead p = p then true
  else ignoreWalk (splitHead p)
termination_by p.length
decreasing_by
  exact splitHead_length_lt p (by assumption)

/-- `should_ignore_file` from `magicpath.py`: the suffix check over the whole
path, then the split walk. -/
def should_ignore_file (p : List Char) : Bool :=
  IGNORE_SUFFIXES.any (fun s => s.isSuffixOf p) || ignoreWalk p

/-! ## Segment analysis for the ignore predicate

`hiddenAux` scans a path keeping track of whether the current position is
the start of a segment (start of the path or just after a `/`); it reports
whether some segment of the path begins with `.`. -/

def hiddenAux : Bool → List Char → Bool
  | _, [] => false
  | s, c :: rest => (s && decide (c = '.')) || hiddenAux (decide (c = '/')) rest

/-- Some `/`-delimited segment of the path (including the leaf) begins with
the hidden-file marker `.`. -/
def hasHiddenSegment (p : List Char) : Bool :=
  hiddenAux true p

/-- The segment-start state after scanning a list, starting from state `s`. -/
def endState : Bool → List Char → Bool
  | s, [] => s
  | _, c :: rest => endState (decide (c = '/')) rest

lemma hiddenAux_append (a : List Char) (s : Bool) (b : List Char) :
    hiddenAux s (a ++ b) = (hiddenAux s a || hiddenAux (endState s a) b) := by
  induction a generalizing s with
  | nil => simp [hiddenAux, endState]
  | cons c rest ih =>
      simp only [List.cons_append, hiddenAux, endState, List.append_eq]
      rw [ih, Bool.or_assoc]

lemma hiddenAux_false_of_noSlash (l : List Char)
    (h : ∀ c ∈ l, c ≠ '/') : hiddenAux false l = false := by
  induction l with
  | nil => rfl
  | cons c rest ih =>
      have hc : c ≠ '/' := h c (List.mem_cons_self c rest)
      simp only [hiddenAux, Bool.false_and, Bool.false_or, decide_eq_false hc]
      exact ih (fun d hd => h d (List.mem_cons_of_mem c hd))

lemma hiddenAux_false_of_allSlash (l : List Char) (s : Bool)
    (h : ∀ c ∈ l, c = '/') : hiddenAux s l = false := by
  induction l generalizing s with
  | nil => rfl
  | cons c rest ih =>
      have hc : c = '/' := h c (List.mem_cons_self c rest)
      have hcd : ¬(c = '.') := by rw [hc]; decide
      simp only [hiddenAux, decide_eq_false hcd, Bool.and_false, Bool.false_or]
      exact ih _ (fun d hd => h d (List.mem_cons_of_mem c hd))

lemma hiddenAux_true_eq_startsWithDot (l : List Char)
    (h : ∀ c ∈ l, c ≠ '/') : hiddenAux true l = startsWithDot l := by
  cases l with
  | nil => rfl
  | cons c rest =>
      have hc : c ≠ '/' := h c (List.mem_cons_self c rest)
      have hrest : hiddenAux false rest = false :=
        hiddenAux_false_of_noSlash rest (fun d hd => h d (List.mem_cons_of_mem c hd))
      simp [hiddenAux, startsWithDot, decide_eq_false hc, hrest]

lemma lastSlashSucc_eq_zero_noSlash (l : List Char)
    (h : lastSlashSucc l = 0) : ∀ c ∈ l, c ≠ '/' := by
  induction l with
  | nil => intro c hc; simp at hc
  | cons c rest ih =>
      intro d hd
      simp only [lastSlashSucc] at h
      split at h
      · omega
      · split at h
        · omega
        · rcases List.mem_cons.mp hd with rfl | hmem
          · assumption
          · exact ih (by omega) d hmem

lemma splitTail_noSlash (p : List Char) : ∀ c ∈ splitTail p, c ≠ '/' := by
  induction p with
  | nil => intro c hc; simp [splitTail, lastSlashSucc] at hc
  | cons c rest ih =>
      intro d hd
      simp only [splitTail, lastSlashSucc] at hd
      by_cases hr : 0 < lastSlashSucc rest
      · rw [if_pos hr] at hd
        simp only [List.drop_succ_cons] at hd
        exact ih d hd
      · rw [if_neg hr] at hd
        have hz : lastSlashSucc rest = 0 := by omega
        by_cases hc : c = '/'
        · rw [if_pos hc] at hd
          simp only [List.drop_succ_cons, List.drop_zero] at hd
          exact lastSlashSucc_eq_zero_noSlash rest hz d hd
        · rw [if_neg hc] at hd
          simp only [List.drop_zero] at hd
          rcases List.mem_cons.mp hd with rfl | hmem
          · assumption
          · exact lastSlashSucc_eq_zero_noSlash rest hz d hmem

lemma endState_take (p : List Char) (hpos : 0 < lastSlashSucc p) (s : Bool) :
    endState s (p.take (lastSlashSucc p)) = true := by
  induction p generalizing s with
  | nil => simp [lastSlashSucc] at hpos
  | cons c rest ih =>
      simp only [lastSlashSucc] at hpos ⊢
      by_cases hr : 0 < lastSlashSucc rest
      · rw [if_pos hr]
        simp only [List.take_succ_cons, endState]
        exact ih hr _
      · rw [if_neg hr]
        by_cases hc : c = '/'
        · rw [if_pos hc]
          simp [endState, hc]
        · rw [if_neg hr, if_neg hc] at hpos
          omega

lemma rstripSlash_append_allSlash (l : List Char) :
    ∃ t, l = rstripSlash l ++ t ∧ ∀ c ∈ t, c = '/' := by
  refine ⟨(l.reverse.takeWhile (fun c => decide (c = '/'))).reverse, ?_, ?_⟩
  · have h : l.reverse.takeWhile (fun c => decide (c = '/'))
        ++ l.reverse.dropWhile (fun c => decide (c = '/')) = l.reverse :=
      List.takeWhile_append_dropWhile _ _
    calc l = l.reverse.reverse := (List.reverse_reverse l).symm
    _ = (l.reverse.takeWhile (fun c => decide (c = '/'))
          ++ l.reverse.dropWhile (fun c => decide (c = '/'))).reverse := by rw [h]
    _ = rstripSlash l ++ (l.reverse.takeWhile (fun c => decide (c = '/'))).reverse := by
          rw [List.reverse_append]; rfl
  · intro c hc
    rw [List.mem_reverse] at hc
    have := List.mem_takeWhile_imp hc
    simpa using this

lemma hasHiddenSegment_rstripSlash (l : List Char) :
    hasHiddenSegment (rstripSlash l) = hasHiddenSegment l := by
  obtain ⟨t, hl, ht⟩ := rstripSlash_append_allSlash l
  unfold hasHiddenSegment
  conv_rhs => rw [hl]
  rw [hiddenAux_append, hiddenAux_false_of_allSlash t _ ht, Bool.or_false]

lemma splitTail_eq_self_of_zero (p : List Char) (h : lastSlashSucc p = 0) :
    splitTail p = p := by
  simp [splitTail, h]

lemma hasHiddenSegment_splitHead (p : List Char)
    (hp : hasHiddenSegment p = true)
    (hd : startsWithDot (splitTail p) = false) :
    hasHiddenSegment (splitHead p) = true := by
  have hsplit : p.take (lastSlashSucc p) ++ splitTail p = p :=
    List.take_append_drop _ _
  by_cases hpos : 0 < lastSlashSucc p
  · have hend : endState true (p.take (lastSlashSucc p)) = true :=
      endState_take p hpos true
    have hdecomp : hiddenAux true p
        = (hiddenAux true (p.take (lastSlashSucc p)) || hiddenAux true (splitTail p)) := by
      conv_lhs => rw [← hsplit]
      rw [hiddenAux_append, hend]
    unfold hasHiddenSegment at hp
    rw [hdecomp] at hp
    have htail : hiddenAux true (splitTail p) = startsWithDot (splitTail p) :=
      hiddenAux_true_eq_startsWithDot _ (splitTail_noSlash p)
    rw [htail, hd, Bool.or_false] at hp
    unfold splitHead
    by_cases hall : ((p.take (lastSlashSucc p)).all fun c => decide (c = '/')) = true
    · rw [if_pos hall]
      exact hp
    · rw [if_neg hall, hasHiddenSegment_rstripSlash]
      exact hp
  · have hzero : lastSlashSucc p = 0 := by omega
    rw [splitTail_eq_self_of_zero p hzero] at hd
    have hns : ∀ c ∈ p, c ≠ '/' := by
      have := splitTail_noSlash p
      rwa [splitTail_eq_self_of_zero p hzero] at this
    unfold hasHiddenSegment at hp
    rw [hiddenAux_true_eq_startsWithDot p hns, hd] at hp
    exact absurd hp (by simp)

lemma ignoreWalk_of_hidden_fuel :
    ∀ n (p : List Char), p.length ≤ n → hasHiddenSegment p = true →
      ignoreWalk p = true := by
  intro n
  induction n with
  | zero =>
      intro p hlen hp
      have : p = [] := List.length_eq_zero.mp (Nat.le_antisymm hlen (Nat.zero_le _))
      subst this
      simp [hasHiddenSegment, hiddenAux] at hp
  | succ n ih =>
      intro p hlen hp
      rw [ignoreWalk]
      by_cases h0 : p = []
      · subst h0; simp [hasHiddenSegment, hiddenAux] at hp
      · rw [if_neg h0]
        by_cases h1 : startsWithDot (splitTail p) = true
        · rw [if_pos h1]
        · rw [if_neg h1]
          by_cases h2 : splitHead p = p
          · rw [if_pos h2]
          · rw [if_neg h2]
            have hlt := splitHead_length_lt p h2
            exact ih (splitHead p) (by omega)
              (hasHiddenSegment_splitHead p hp (by simpa using h1))

lemma lastSlashSucc_cons_slash_pos (t : List Char) :
    0 < lastSlashSucc ('/' :: t) := by
  simp only [lastSlashSucc]
  split
  · omega
  · simp

lemma splitHead_cons_slash (t : List Char) :
    ∃ u, splitHead ('/' :: t) = '/' :: u := by
  have hpos := lastSlashSucc_cons_slash_pos t
  obtain ⟨j, hj⟩ := Nat.exists_eq_add_of_lt hpos
  have htake : ('/' :: t).take (lastSlashSucc ('/' :: t)) = '/' :: t.take j := by
    rw [hj]
    simp [Nat.add_comm, List.take_succ_cons]
  unfold splitHead
  by_cases hall : ((('/' :: t).take (lastSlashSucc ('/' :: t))).all
      fun c => decide (c = '/')) = true
  · rw [if_pos hall, htake]
    exact ⟨t.take j, rfl⟩
  · rw [if_neg hall, htake]
    obtain ⟨t2, hdec, ht2⟩ := rstripSlash_append_allSlash ('/' :: t.take j)
    cases hstrip : rstripSlash ('/' :: t.take j) with
    | nil =>
        -- then the list is all slashes, contradicting ¬all
        rw [hstrip, List.nil_append] at hdec
        rw [htake] at hall
        exact absurd (List.all_eq_true.mpr (by
          intro c hc
          rw [hdec] at hc
          simpa using ht2 c hc)) hall
    | cons e u =>
        rw [hstrip] at hdec
        have : e = '/' := by
          have : e :: (u ++ t2) = '/' :: t.take j := by
            simpa using hdec.symm
          exact (List.cons.injEq _ _ _ _).mp this |>.1
        exact ⟨u, by rw [this]⟩

lemma ignoreWalk_absolute_fuel :
    ∀ n (t : List Char), ('/' :: t).length ≤ n → ignoreWalk ('/' :: t) = true := by
  intro n
  induction n with
  | zero => intro t hlen; simp at hlen
  | succ n ih =>
      intro t hlen
      rw [ignoreWalk]
      rw [if_neg (by simp : ¬('/' :: t = []))]
      by_cases h1 : startsWithDot (splitTail ('/' :: t)) = true
      · rw [if_pos h1]
      · rw [if_neg h1]
        by_cases h2 : splitHead ('/' :: t) = '/' :: t
        · rw [if_pos h2]
        · rw [if_neg h2]
          obtain ⟨u, hu⟩ := splitHead_cons_slash t
          have hlt := splitHead_length_lt ('/' :: t) h2
          rw [hu] at hlt ⊢
          exact ih u (by simp at hlen hlt ⊢; omega)

/-- C9: every absolute path (one beginning with the separator `/`) is
classified as ignored: the split walk eventually reaches an all-slash
remainder, where `os.path.split` no longer shrinks the path and the
dedicated absolute-path branch returns true. -/
theorem should_ignore_file_absolute (rest : List Char) :
    should_ignore_file ('/' :: rest) = true := by
  unfold should_ignore_file
  rw [ignoreWalk_absolute_fuel ('/' :: rest).length rest (Nat.le_refl _)]
  simp

/-- C4: `should_ignore_file` returns true when the leaf segment (the tail
component of `os.path.split`) ends with one of the fixed reserved suffixes
`.backup`, `.tmp`, `.conflict`, whatever the other segments are; and it
returns true when any `/`-delimited segment of the path (including the
leaf) begins with the hidden-file marker `.`. -/
theorem should_ignore_file_spec (p : List Char) :
    (∀ s ∈ IGNORE_SUFFIXES, s <:+ splitTail p → should_ignore_file p = true) ∧
    (hasHiddenSegment p = true → should_ignore_file p = true) := by
  constructor
  · intro s hs hsuf
    unfold should_ignore_file
    have hsp : s <:+ p := hsuf.trans (List.drop_suffix _ _)
    have hb : s.isSuffixOf p = true := List.isSuffixOf_iff_suffix.mpr hsp
    have hany : (IGNORE_SUFFIXES.any fun s => s.isSuffixOf p) = true :=
      List.any_eq_true.mpr ⟨s, hs, hb⟩
    rw [hany, Bool.true_or]
  · intro hh
    unfold should_ignore_file
    rw [ignoreWalk_of_hidden_fuel p.length p (Nat.le_refl _) hh, Bool.or_true]

theorem should_ignore_file_spec_witness :
    should_ignore_file ['a', '/', 'b', '.', 't', 'm', 'p'] = true ∧
    should_ignore_file ['a', '/', '.', 'h', '/', 'c'] = true :=
  ⟨(should_ignore_file_spec ['a', '/', 'b', '.', 't', 'm', 'p']).1
      ['.', 't', 'm', 'p'] (by decide) (by decide),
   (should_ignore_file_spec ['a', '/', '.', 'h', '/', 'c']).2 (by decide)⟩

/-! ## Storage client adapter (`src/magic_folder/tahoe_client.py`)

Each operation is modelled as a function of the grid's HTTP response: the
request building (URL, method, payload) is transport plumbing with no effect
on the success/error behaviour the claims are about.  A raised exception is
an `Except.error` value. -/

/-- `twisted.web.http.OK`. -/
def OK : Nat := 200

/-- `twisted.web.http.CREATED`. -/
def CREATED : Nat := 201

/-- An HTTP response from the grid: status code and full body. -/
structure Response where
  code : Nat
  body : List Char
deriving DecidableEq

/-- `TahoeAPIError` from `tahoe_client.py`: code and body of the failed
response (`body` is `none` only where the code passes `None`). -/
structure TahoeAPIError where
  code : Nat
  body : Option (List Char)
deriving DecidableEq

/-- `_get_content_check_code`: read the response body, then raise
`TahoeAPIError(code, body)` if the code is not acceptable, else return the
body. -/
def _get_content_check_code (acceptable : List Nat) (res : Response) :
    Except TahoeAPIError (List Char) :=
  if res.code ∈ acceptable then Except.ok res.body
  else Except.error ⟨res.code, some res.body⟩

/-- Python's `bytes.strip()` whitespace set. -/
def pyIsSpace (c : Char) : Bool :=
  decide (c = ' ') || decide (c = '\t') || decide (c = '\n') ||
  decide (c = '\r') || decide (c = '\x0b') || decide (c = '\x0c')

/-- Python's `s.strip()`: remove whitespace from both ends. -/
def bstrip (l : List Char) : List Char :=
  ((l.dropWhile pyIsSpace).reverse.dropWhile pyIsSpace).reverse

/-- `TahoeClient.create_immutable`: PUT the producer, accept only CREATED,
return the stripped body as the capability string. -/
def create_immutable (res : Response) : Except TahoeAPIError (List Char) :=
  match _get_content_check_code [CREATED] res with
  | Except.error e => Except.error e
  | Except.ok b => Except.ok (bstrip b)

/-- `TahoeClient.create_immutable_directory`: POST `t=mkdir-immutable`,
accept OK or CREATED, return the stripped body as the capability string. -/
def create_immutable_directory (res : Response) : Except TahoeAPIError (List Char) :=
  match _get_content_check_code [OK, CREATED] res with
  | Except.error e => Except.error e
  | Except.ok b => Except.ok (bstrip b)

/-- `TahoeClient.create_mutable_directory`: POST `t=mkdir`, accept OK or
CREATED, return the body unstripped. -/
def create_mutable_directory (res : Response) : Except TahoeAPIError (List Char) :=
  _get_content_check_code [OK, CREATED] res

/-- `TahoeClient.download_capability`: GET, accept only OK, return the body. -/
def download_capability (res : Response) : Except TahoeAPIError (List Char) :=
  _get_content_check_code [OK] res

/-- A streamed response: status code plus the chunks the transport delivers
to `collect` before it completes or fails. -/
structure StreamResponse where
  code : Nat
  delivered : List (List Char)
deriving DecidableEq

/-- `TahoeClient.stream_capability`: on a non-OK status raise
`TahoeAPIError(code, None)` without touching the sink; on OK, `collect`
appends every delivered chunk to the sink (chunks written before a
mid-stream failure stay written).  The sink is the list of chunks written
so far. -/
def stream_capability (res : StreamResponse) (sink : List (List Char)) :
    Option TahoeAPIError × List (List Char) :=
  if res.code = OK then (none, sink ++ res.delivered)
  else (some ⟨res.code, none⟩, sink)

/-- `tahoe_put_immutable` from `snapshot.py`: accept OK or CREATED and
return the body; any other status raises a plain untyped `Exception`
(modelled as a string error). -/
def tahoe_put_immutable (res : Response) : Except String (List Char) :=
  if res.code = OK ∨ res.code = CREATED then Except.ok res.body
  else Except.error "Error response PUT"

/-- C6 counterexample: the snapshot-module `tahoe_put_immutable` succeeds on
status 200, so the put-immutable operation does not succeed exactly on
status 201 (CREATED) as claimed. -/
theorem tahoe_put_immutable_accepts_ok_counterexample :
    tahoe_put_immutable ⟨200, ['c']⟩ = Except.ok ['c'] ∧ (200 : Nat) ≠ CREATED := by
  constructor
  · rfl
  · decide

/-- C6 (amended): the storage adapter's `create_immutable` succeeds with
the (stripped) capability string exactly when the response status is 201
(CREATED) and raises `TahoeAPIError(code, body)` on any other status; the
snapshot-module's legacy `tahoe_put_immutable` additionally treats 200 as
success and raises an untyped `Exception` otherwise. -/
theorem create_immutable_spec (res : Response) :
    (res.code = CREATED → create_immutable res = Except.ok (bstrip res.body)) ∧
    (res.code ≠ CREATED →
      create_immutable res = Except.error ⟨res.code, some res.body⟩) := by
  constructor
  · intro h
    simp [create_immutable, _get_content_check_code, h]
  · intro h
    simp [create_immutable, _get_content_check_code, h]

theorem create_immutable_spec_witness :
    create_immutable ⟨201, ['c']⟩ = Except.ok (bstrip ['c']) ∧
    create_immutable ⟨500, ['e']⟩ = Except.error ⟨500, some ['e']⟩ :=
  ⟨(create_immutable_spec ⟨201, ['c']⟩).1 rfl,
   (create_immutable_spec ⟨500, ['e']⟩).2 (by decide)⟩

/-- C7 (amended): the storage adapter's `create_immutable_directory`
succeeds with the (stripped) capability string exactly when the response
status is 200 (OK) or 201 (CREATED), and raises `TahoeAPIError(code, body)`
on any other status; the snapshot-module's legacy `tahoe_create_snapshot_dir`
treats only 200 as success. -/
theorem create_immutable_directory_spec (res : Response) :
    ((res.code = OK ∨ res.code = CREATED) →
      create_immutable_directory res = Except.ok (bstrip res.body)) ∧
    (¬(res.code = OK ∨ res.code = CREATED) →
      create_immutable_directory res = Except.error ⟨res.code, some res.body⟩) := by
  constructor
  · intro h
    rcases h with h | h <;>
      simp [create_immutable_directory, _get_content_check_code, h]
  · intro h
    push_neg at h
    simp [create_immutable_directory, _get_content_check_code, h.1, h.2]

theorem create_immutable_directory_spec_witness :
    create_immutable_directory ⟨200, ['c']⟩ = Except.ok (bstrip ['c']) ∧
    create_immutable_directory ⟨201, ['d']⟩ = Except.ok (bstrip ['d']) ∧
    create_immutable_directory ⟨404, ['e']⟩ = Except.error ⟨404, some ['e']⟩ :=
  ⟨(create_immutable_directory_spec ⟨200, ['c']⟩).1 (Or.inl rfl),
   (create_immutable_directory_spec ⟨201, ['d']⟩).1 (Or.inr rfl),
   (create_immutable_directory_spec ⟨404, ['e']⟩).2 (by decide)⟩

/-- C10: when `create_immutable`, `create_immutable_directory`,
`create_mutable_directory` or `download_capability` fails, the raised
`TahoeAPIError` carries the complete response body (the body is read before
the status check); `stream_capability` instead raises `TahoeAPIError` with
body `None` on a non-OK status, and chunks already written to the sink are
never undone (the prior sink contents are always a prefix of the final
sink). -/
theorem tahoe_error_body_spec (res : Response) (sres : StreamResponse)
    (sink : List (List Char)) :
    (res.code ≠ CREATED →
      create_immutable res = Except.error ⟨res.code, some res.body⟩) ∧
    (¬(res.code = OK ∨ res.code = CREATED) →
      create_immutable_directory res = Except.error ⟨res.code, some res.body⟩) ∧
    (¬(res.code = OK ∨ res.code = CREATED) →
      create_mutable_directory res = Except.error ⟨res.code, some res.body⟩) ∧
    (res.code ≠ OK →
      download_capability res = Except.error ⟨res.code, some res.body⟩) ∧
    (sres.code ≠ OK →
      stream_capability sres sink = (some ⟨sres.code, none⟩, sink)) ∧
    sink <+: (stream_capability sres sink).2 := by
  refine ⟨?_, ?_, ?_, ?_, ?_, ?_⟩
  · intro h
    simp [create_immutable, _get_content_check_code, h]
  · intro h
    push_neg at h
    simp [create_immutable_directory, _get_content_check_code, h.1, h.2]
  · intro h
    push_neg at h
    simp [create_mutable_directory, _get_content_check_code, h.1, h.2]
  · intro h
    simp [download_capability, _get_content_check_code, h]
  · intro h
    simp [stream_capability, h]
  · unfold stream_capability
    by_cases h : sres.code = OK
    · rw [if_pos h]
      exact ⟨sres.delivered, rfl⟩
    · rw [if_neg h]

theorem tahoe_error_body_spec_witness :
    create_immutable ⟨503, ['b']⟩ = Except.error ⟨503, some ['b']⟩ ∧
    create_immutable_directory ⟨503, ['b']⟩ = Except.error ⟨503, some ['b']⟩ ∧
    create_mutable_directory ⟨503, ['b']⟩ = Except.error ⟨503, some ['b']⟩ ∧
    download_capability ⟨503, ['b']⟩ = Except.error ⟨503, some ['b']⟩ ∧
    stream_capability ⟨503, [['x']]⟩ [['w']] = (some ⟨503, none⟩, [['w']]) :=
  ⟨(tahoe_error_body_spec ⟨503, ['b']⟩ ⟨503, [['x']]⟩ [['w']]).1 (by decide),
   (tahoe_error_body_spec ⟨503, ['b']⟩ ⟨503, [['x']]⟩ [['w']]).2.1 (by decide),
   (tahoe_error_body_spec ⟨503, ['b']⟩ ⟨503, [['x']]⟩ [['w']]).2.2.1 (by decide),
   (tahoe_error_body_spec ⟨503, ['b']⟩ ⟨503, [['x']]⟩ [['w']]).2.2.2.1 (by decide),
   (tahoe_error_body_spec ⟨503, ['b']⟩ ⟨503, [['x']]⟩ [['w']]).2.2.2.2.1 (by decide)⟩

/-! ## Snapshot creation protocol (`src/magic_folder/snapshot.py`) -/

/-- `SNAPSHOT_VERSION` from `snapshot.py`. -/
def SNAPSHOT_VERSION : Nat := 1

/-- A value of one field of the directory object body: either a
`["filenode", {"ro_uri": ..., "metadata": {...}}]` descriptor or (for the
top-level `parents` key) a plain list of capability strings. -/
inductive FieldValue where
  | filenode (ro_uri : String) (metadata : List (String × String))
  | caplist (caps : List String)
deriving DecidableEq

/-- Total lookup in the association-list body: the value mapped to the
first occurrence of the key, if any. -/
def lookupField (k : String) : List (String × FieldValue) → Option FieldValue
  | [] => none
  | (k2, v) :: rest => if k = k2 then some v else lookupField k rest

/-- The directory-object body built by `tahoe_create_snapshot_dir`:
`content`, `version` and `timestamp` filenodes (empty metadata), plus a
`parents` field exactly when the parent list is non-empty, holding the
parent capabilities in the order given. -/
def snapshot_dir_body (content : String) (parents : List String)
    (timestamp : Nat) : List (String × FieldValue) :=
  [("content", FieldValue.filenode content []),
   ("version", FieldValue.filenode (toString SNAPSHOT_VERSION) []),
   ("timestamp", FieldValue.filenode (toString timestamp) [])]
  ++ (if parents = [] then [] else [("parents", FieldValue.caplist parents)])

/-- Modelled from the spec: `bad_response` lives in `common.py`, which is
not among the sources; per the spec a grid response outside the accepted
set yields a typed error carrying the response code and body. -/
structure BadResponse where
  code : Nat
  body : List Char
deriving DecidableEq

/-- `tahoe_create_snapshot_dir` from `snapshot.py`: build the body, POST
`t=mkdir-immutable`, and — given the grid's response — return the response
body (the capability) on status OK (200), `bad_response` otherwise.  The
result pairs the body sent with the outcome. -/
def tahoe_create_snapshot_dir (content : String) (parents : List String)
    (timestamp : Nat) (res : Response) :
    List (String × FieldValue) × Except BadResponse (List Char) :=
  (snapshot_dir_body content parents timestamp,
   if res.code ≠ OK then Except.error ⟨res.code, res.body⟩ else Except.ok res.body)

/-- C7 counterexample: `tahoe_create_snapshot_dir` (one of the two callers
of `POST /uri?t=mkdir-immutable`) treats status 201 (CREATED) as an error,
not as success as the claim states. -/
theorem tahoe_create_snapshot_dir_rejects_created_counterexample :
    (tahoe_create_snapshot_dir "c" [] 0 ⟨201, ['x']⟩).2
      = Except.error ⟨201, ['x']⟩ := by
  rfl

/-- C3: the directory-object body always maps `content` to the content
capability, `version` to the decimal string of `SNAPSHOT_VERSION` (`"1"`),
and `timestamp` to the timestamp as a decimal string; a `parents` field is
present exactly when the parent list is non-empty and then holds the parent
capabilities in the order given; and on success the operation returns the
capability produced by the directory-creation call (the response body). -/
theorem snapshot_dir_fields_spec (content : String) (parents : List String)
    (timestamp : Nat) (res : Response) :
    lookupField "content" (snapshot_dir_body content parents timestamp)
      = some (FieldValue.filenode content []) ∧
    lookupField "version" (snapshot_dir_body content parents timestamp)
      = some (FieldValue.filenode "1" []) ∧
    lookupField "timestamp" (snapshot_dir_body content parents timestamp)
      = some (FieldValue.filenode (toString timestamp) []) ∧
    lookupField "parents" (snapshot_dir_body content parents timestamp)
      = (if parents = [] then none else some (FieldValue.caplist parents)) ∧
    (res.code = OK →
      (tahoe_create_snapshot_dir content parents timestamp res).2
        = Except.ok res.body) := by
  have hvc : ("version" : String) ≠ "content" := by decide
  have htc : ("timestamp" : String) ≠ "content" := by decide
  have htv : ("timestamp" : String) ≠ "version" := by decide
  have hpc : ("parents" : String) ≠ "content" := by decide
  have hpv : ("parents" : String) ≠ "version" := by decide
  have hpt : ("parents" : String) ≠ "timestamp" := by decide
  refine ⟨?_, ?_, ?_, ?_, ?_⟩
  · simp [snapshot_dir_body, lookupField]
  · have h1 : toString SNAPSHOT_VERSION = "1" := rfl
    simp [snapshot_dir_body, lookupField, hvc, h1]
  · simp [snapshot_dir_body, lookupField, htc, htv]
  · by_cases hp : parents = []
    · simp [snapshot_dir_body, lookupField, hp, hpc, hpv, hpt]
    · simp [snapshot_dir_body, lookupField, hp, hpc, hpv, hpt]
  · intro h
    simp [tahoe_create_snapshot_dir, h]

theorem snapshot_dir_fields_spec_witness :
    (tahoe_create_snapshot_dir "cap" ["p1", "p2"] 42 ⟨200, ['x']⟩).2
      = Except.ok ['x'] :=
  (snapshot_dir_fields_spec "cap" ["p1", "p2"] 42 ⟨200, ['x']⟩).2.2.2.2 rfl

/-! ## Local capture chain -/

/-- Modelled from the spec: the `LocalSnapshot` type and the Local Capture
Service (`LocalSnapshotCreator` in `magic_folder.py`, referenced by the
tests) are not among the sources.  Per the spec's data model, a
`LocalSnapshot` has a fresh identifier, a name, staged content and an
ordered list of local parent snapshots. -/
inductive LocalSnapshot where
  | mk (identifier : Nat) (name : String) (content : List Char)
       (parents : List LocalSnapshot)

/-- The `parents_local` field of a `LocalSnapshot`. -/
def LocalSnapshot.parents_local : LocalSnapshot → List LocalSnapshot
  | LocalSnapshot.mk _ _ _ ps => ps

/-- Modelled from the spec: one accepted capture for a path — look up the
previous `LocalSnapshot` for the path (if any), which becomes the sole
element of `parents_local`, allocate a fresh identifier and construct the
new snapshot. -/
def captureStep (prev : Option LocalSnapshot) (ident : Nat) (name : String)
    (content : List Char) : LocalSnapshot :=
  LocalSnapshot.mk ident name content
    (match prev with
     | none => []
     | some s => [s])

/-- Modelled from the spec: submitting a sequence of edits for one path in
FIFO order, each capture taking the previous snapshot as parent and
becoming the stored snapshot for the path.  Returns the snapshots created,
in submission order. -/
def runSubmits (prev : Option LocalSnapshot) (ident : Nat) (name : String) :
    List (List Char) → List LocalSnapshot
  | [] => []
  | c :: cs =>
    captureStep prev ident name c
      :: runSubmits (some (captureStep prev ident name c)) (ident + 1) name cs

lemma runSubmits_length (prev : Option LocalSnapshot) (ident : Nat)
    (name : String) (cs : List (List Char)) :
    (runSubmits prev ident name cs).length = cs.length := by
  induction cs generalizing prev ident with
  | nil => rfl
  | cons c cs ih => simp [runSubmits, ih]

lemma runSubmits_link (name : String) :
    ∀ (cs : List (List Char)) (prev : Option LocalSnapshot) (ident k : Nat)
      (h : k + 1 < (runSubmits prev ident name cs).length)
      (h2 : k < (runSubmits prev ident name cs).length),
      ((runSubmits prev ident name cs).get ⟨k + 1, h⟩).parents_local
        = [(runSubmits prev ident name cs).get ⟨k, h2⟩] := by
  intro cs
  induction cs with
  | nil => intro prev ident k h h2; simp [runSubmits] at h
  | cons c cs ih =>
      intro prev ident k h h2
      cases k with
      | zero =>
          cases cs with
          | nil => simp [runSubmits] at h
          | cons c2 cs2 =>
              simp [runSubmits, List.get, captureStep, LocalSnapshot.parents_local]
      | succ k =>
          have hlen : k + 1 < (runSubmits (some (captureStep prev ident name c))
              (ident + 1) name cs).length := by
            simpa [runSubmits] using h
          have hlen2 : k < (runSubmits (some (captureStep prev ident name c))
              (ident + 1) name cs).length := by
            omega
          have := ih (some (captureStep prev ident name c)) (ident + 1) k hlen hlen2
          simpa [runSubmits, List.get] using this

/-- C8: submitting `n` edits to one path in sequence yields `n`
`LocalSnapshot`s in which the first has no local parent and, for every
`k ≥ 2`, snapshot `k`'s `parents_local` holds exactly one element, namely
snapshot `k - 1`: the chain reflects FIFO submission order. -/
theorem localsnapshot_chain_spec (name : String) (contents : List (List Char)) :
    (runSubmits none 0 name contents).length = contents.length ∧
    (∀ h0 : 0 < (runSubmits none 0 name contents).length,
      ((runSubmits none 0 name contents).get ⟨0, h0⟩).parents_local = []) ∧
    (∀ (k : Nat) (h : k + 1 < (runSubmits none 0 name contents).length)
        (h2 : k < (runSubmits none 0 name contents).length),
      ((runSubmits none 0 name contents).get ⟨k + 1, h⟩).parents_local
        = [(runSubmits none 0 name contents).get ⟨k, h2⟩]) := by
  refine ⟨runSubmits_length none 0 name contents, ?_, ?_⟩
  · intro h0
    cases contents with
    | nil => simp [runSubmits] at h0
    | cons c cs =>
        simp [runSubmits, List.get, captureStep, LocalSnapshot.parents_local]
  · intro k h h2
    exact runSubmits_link name contents none 0 k h h2

theorem localsnapshot_chain_spec_witness :
    ((runSubmits none 0 "f" [['a'], ['b']]).get
        ⟨0, by simp [runSubmits]⟩).parents_local = [] ∧
    ((runSubmits none 0 "f" [['a'], ['b']]).get
        ⟨1, by simp [runSubmits]⟩).parents_local
      = [(runSubmits none 0 "f" [['a'], ['b']]).get ⟨0, by simp [runSubmits]⟩] :=
  ⟨(localsnapshot_chain_spec "f" [['a'], ['b']]).2.1 (by simp [runSubmits]),
   (localsnapshot_chain_spec "f" [['a'], ['b']]).2.2 0
    (by simp [runSubmits]) (by simp [runSubmits])⟩
